import Mathlib

/-!
Verification of the `buffer` crate: a fixed-capacity circular (ring) buffer
(`src/lib.rs`).  The core ring is `mod buffer`'s `Buffer<T>`: a storage
vector of `capacity` slots, a logical length `len` and a write cursor `pos`.
The public `Buffer<T>` wrapper only puts the core behind `Arc<RwLock<_>>`
and forwards every call while holding the lock, so the sequential semantics
verified here is exactly the semantics of the core ring.

Modelling choices, all taken from the source:
* `Vec<T>` becomes `List T`.  `new(capacity)` does
  `Vec::with_capacity(capacity)` followed by `set_len(capacity)`, so the
  vector's length equals the requested capacity and each slot initially
  holds whatever junk the allocator returned.  `Buffer.new junk` therefore
  takes the junk contents as a parameter; the requested capacity is
  `junk.length`, and `capacity()` (which reads `self.buffer.capacity()`)
  is embedded as `b.buffer.length`.
* Rust indexing `self.buffer[self.pos] = value` panics when
  `pos >= buffer.len()`.  `push` returns `Option`: `none` is the panic.
* `value.clone()` on a value is the value itself.
-/

/-- `FillLevel` (src/lib.rs lines 5-9). -/
inductive FillLevel where
  | Empty
  | Partial
  | Full
  deriving DecidableEq

/-- The core ring `buffer::Buffer<T>` (src/lib.rs lines 59-63).
`buffer` is the storage vector (its length is always the requested
capacity), `len` the logical element count, `pos` the cursor of the next
write. -/
structure Buffer (T : Type) where
  buffer : List T
  len : Nat
  pos : Nat
  deriving DecidableEq

namespace Buffer

variable {T : Type}

/-- `Buffer::new(capacity)` (lines 65-76): `len = 0`, `pos = 0`, storage a
vector of `capacity` uninitialized slots.  `junk` is the uninitialized
contents, so the requested capacity is `junk.length`. -/
def new (junk : List T) : Buffer T :=
  ⟨junk, 0, 0⟩

/-- `capacity()` (lines 83-85): the storage vector's capacity, which equals
its length here because `new` did `set_len(capacity)`. -/
def capacity (b : Buffer T) : Nat :=
  b.buffer.length

/-- `is_empty()` (lines 80-82). -/
def is_empty (b : Buffer T) : Bool :=
  b.len == 0

/-- `inc_pos()` (lines 86-95): advance the cursor, wrap at capacity, and
saturate `len` at capacity. -/
def inc_pos (b : Buffer T) : Buffer T :=
  let p := b.pos + 1
  let c := b.capacity
  { b with pos := if p = c then 0 else p,
           len := if b.len < c then b.len + 1 else b.len }

/-- `fill_level()` (lines 96-103): the match tries `0 => Empty` first, then
`x if x == capacity => Full`, then `Partial`. -/
def fill_level (b : Buffer T) : FillLevel :=
  if b.len = 0 then .Empty
  else if b.len = b.capacity then .Full
  else .Partial

/-- `push(value)` (lines 104-107): `self.buffer[self.pos] = value` then
`inc_pos()`.  The indexing panics when `pos >= buffer.len()` (in
particular on every push into a capacity-0 ring); `none` models that
panic, which aborts before `inc_pos` runs. -/
def push (b : Buffer T) (v : T) : Option (Buffer T) :=
  if b.pos < b.buffer.length then
    some (inc_pos { b with buffer := b.buffer.set b.pos v })
  else
    none

/-- `clear()` (lines 108-111): reset `len` and `pos`; the slots keep their
old contents. -/
def clear (b : Buffer T) : Buffer T :=
  { b with len := 0, pos := 0 }

/-- `head()` (lines 114-126): `None` when `Empty`, otherwise
`buffer.get(pos == 0 ? capacity - 1 : pos - 1).cloned()`. -/
def head (b : Buffer T) : Option T :=
  match b.fill_level with
  | .Empty => none
  | _ => b.buffer[if b.pos = 0 then b.capacity - 1 else b.pos - 1]?

/-- `snapshot()` (lines 127-138): `Partial` copies `buffer[..pos]`, `Full`
copies `buffer[pos..capacity]` then `buffer[..pos]` (the storage length is
the capacity, so `buffer[pos..capacity]` is `drop pos`), `Empty` yields
`[]`. -/
def snapshot (b : Buffer T) : List T :=
  match b.fill_level with
  | .Partial => b.buffer.take b.pos
  | .Full => b.buffer.drop b.pos ++ b.buffer.take b.pos
  | .Empty => []

/-- The wrapper's `push_slice(slice)` (lines 38-43): under one lock, loop
over the slice and `push(value.clone())` each element; a panicking push
aborts the rest of the loop. -/
def push_slice : Buffer T → List T → Option (Buffer T)
  | b, [] => some b
  | b, v :: vs =>
    match b.push v with
    | some b2 => b2.push_slice vs
    | none => none

/-- Spec-words definition for the round-trip claim: "calling `push` once
per element of `values` in order". -/
def pushEach : Buffer T → List T → Option (Buffer T)
  | b, [] => some b
  | b, v :: vs => (b.push v).bind fun b2 => pushEach b2 vs

/-- The states a ring can actually be in: freshly constructed (with any
junk in the uninitialized slots), or the result of a successful `push` or
of `clear` on a reachable state.  `push_slice`/`pushEach` are successful
pushes in sequence, so they stay inside `Reachable`. -/
inductive Reachable : Buffer T → Prop where
  | new (junk : List T) : Reachable (Buffer.new junk)
  | push (b b2 : Buffer T) (v : T) : Reachable b → b.push v = some b2 → Reachable b2
  | clear (b : Buffer T) : Reachable b → Reachable b.clear

/-- The state invariant of the ring: `len` never exceeds the capacity, the
cursor is inside the storage (or pinned at 0 when the capacity is 0), and
while the ring is not yet full the cursor equals `len` (the valid window
is `storage[0..len)`, unwrapped). -/
def Inv (b : Buffer T) : Prop :=
  b.len ≤ b.buffer.length ∧
  (b.pos < b.buffer.length ∨ (b.pos = 0 ∧ b.buffer.length = 0)) ∧
  (b.len < b.buffer.length → b.pos = b.len)

/-- The last `n` elements of `l` (all of `l` when `l.length ≤ n`). -/
def lastN (n : Nat) (l : List T) : List T :=
  l.drop (l.length - n)

theorem lastN_of_le {n : Nat} {l : List T} (h : l.length ≤ n) : lastN n l = l := by
  simp only [lastN, Nat.sub_eq_zero_of_le h, List.drop_zero]

theorem lastN_length (n : Nat) (l : List T) : (lastN n l).length = min n l.length := by
  simp only [lastN, List.length_drop]
  omega

theorem inv_new (junk : List T) : Inv (Buffer.new junk) := by
  refine ⟨Nat.zero_le _, ?_, fun _ => rfl⟩
  rcases Nat.eq_zero_or_pos junk.length with h | h
  · exact Or.inr ⟨rfl, h⟩
  · exact Or.inl h

theorem inv_clear (b : Buffer T) : Inv b.clear := by
  refine ⟨Nat.zero_le _, ?_, fun _ => rfl⟩
  rcases Nat.eq_zero_or_pos b.buffer.length with h | h
  · exact Or.inr ⟨rfl, h⟩
  · exact Or.inl h

theorem pos_lt_of_push_eq_some {b b2 : Buffer T} {v : T}
    (h : b.push v = some b2) : b.pos < b.buffer.length := by
  by_contra hn
  simp [push, hn] at h

theorem push_eq {b : Buffer T} {v : T} (h : b.pos < b.buffer.length) :
    b.push v = some ⟨b.buffer.set b.pos v,
      if b.len < b.buffer.length then b.len + 1 else b.len,
      if b.pos + 1 = b.buffer.length then 0 else b.pos + 1⟩ := by
  simp [push, inc_pos, capacity, h]

theorem inv_push {b b2 : Buffer T} {v : T} (hInv : Inv b)
    (h : b.push v = some b2) : Inv b2 := by
  obtain ⟨h1, _h2, h3⟩ := hInv
  have hp := pos_lt_of_push_eq_some h
  rw [push_eq hp] at h
  obtain rfl : _ = b2 := Option.some.inj h
  by_cases hlc : b.len < b.buffer.length
  · have hpl := h3 hlc
    refine ⟨?_, ?_, ?_⟩ <;> simp only [List.length_set] <;> split_ifs <;> omega
  · refine ⟨?_, ?_, ?_⟩ <;> simp only [List.length_set] <;> split_ifs <;> omega

theorem inv_of_reachable {b : Buffer T} (h : Reachable b) : Inv b := by
  induction h with
  | new junk => exact inv_new junk
  | push b b2 v _hr hp ih => exact inv_push ih hp
  | clear b _hr ih => exact inv_clear b

theorem fill_level_eq_Empty_iff (b : Buffer T) :
    b.fill_level = .Empty ↔ b.len = 0 := by
  unfold fill_level
  split_ifs <;> simp_all

theorem fill_level_eq_Full_iff (b : Buffer T) :
    b.fill_level = .Full ↔ (b.len = b.capacity ∧ 0 < b.len) := by
  unfold fill_level
  split_ifs <;> simp_all
  omega

theorem fill_level_eq_Partial_iff (b : Buffer T) :
    b.fill_level = .Partial ↔ (b.len ≠ 0 ∧ b.len ≠ b.capacity) := by
  unfold fill_level
  split_ifs <;> simp_all

theorem snapshot_of_len_eq_zero {b : Buffer T} (h : b.len = 0) :
    b.snapshot = [] := by
  simp [snapshot, fill_level, h]

theorem snapshot_of_partial_fill {b : Buffer T} (h0 : b.len ≠ 0)
    (hc : b.len ≠ b.capacity) : b.snapshot = b.buffer.take b.pos := by
  simp [snapshot, fill_level, h0, hc]

theorem snapshot_of_full {b : Buffer T} (h0 : b.len ≠ 0)
    (hc : b.len = b.capacity) :
    b.snapshot = b.buffer.drop b.pos ++ b.buffer.take b.pos := by
  have hcz : b.capacity ≠ 0 := by rw [← hc]; exact h0
  simp [snapshot, fill_level, h0, hc, hcz]

theorem snapshot_of_lt {b : Buffer T} (hInv : Inv b)
    (h : b.len < b.buffer.length) : b.snapshot = b.buffer.take b.len := by
  obtain ⟨_h1, _h2, h3⟩ := hInv
  rcases Nat.eq_zero_or_pos b.len with h0 | h0
  · rw [snapshot_of_len_eq_zero h0, h0, List.take_zero]
  · rw [snapshot_of_partial_fill (by omega) (fun hc => by simp [capacity] at hc; omega),
      h3 h]

theorem snapshot_length {b : Buffer T} (hInv : Inv b) :
    b.snapshot.length = b.len := by
  obtain ⟨h1, h2, h3⟩ := hInv
  rcases Nat.lt_or_ge b.len b.buffer.length with h | h
  · rw [snapshot_of_lt ⟨h1, h2, h3⟩ h]
    simp only [List.length_take]
    omega
  · have hlc : b.len = b.buffer.length := Nat.le_antisymm h1 h
    rcases Nat.eq_zero_or_pos b.len with h0 | h0
    · rw [snapshot_of_len_eq_zero h0, h0]
      rfl
    · have hp : b.pos < b.buffer.length := by
        rcases h2 with hlt | ⟨_, hz⟩
        · exact hlt
        · omega
      rw [snapshot_of_full (by omega) (by simpa [capacity] using hlc)]
      simp only [List.length_append, List.length_drop, List.length_take]
      omega

theorem take_succ_set (l : List T) (n : Nat) (v : T) (h : n < l.length) :
    (l.set n v).take (n + 1) = l.take n ++ [v] := by
  rw [List.take_succ]
  congr 1
  · rw [List.set_take]
    apply List.set_eq_of_length_le
    simp
  · simp [List.getElem?_set_self h]

theorem set_last_eq (l : List T) (n : Nat) (v : T) (h : n + 1 = l.length) :
    l.set n v = l.take n ++ [v] := by
  rw [List.set_eq_take_append_cons_drop, if_pos (by omega),
    List.drop_eq_nil_of_le (by omega)]

/-- One successful `push` on a state satisfying the invariant, with nonzero
capacity: it writes `v` at the cursor, advances the cursor modulo the
capacity, saturates `len`, and appends `v` to the logical window (dropping
the oldest element first when the ring was full). -/
theorem push_step {b : Buffer T} (v : T) (hInv : Inv b)
    (hc : 0 < b.buffer.length) :
    ∃ b2, b.push v = some b2 ∧
      b2.buffer = b.buffer.set b.pos v ∧
      b2.buffer.length = b.buffer.length ∧
      b2.len = min (b.len + 1) b.buffer.length ∧
      b2.pos = (b.pos + 1) % b.buffer.length ∧
      Inv b2 ∧
      b2.snapshot =
        (if b.len = b.buffer.length then b.snapshot.tail else b.snapshot) ++ [v] := by
  obtain ⟨h1, h2, h3⟩ := hInv
  have hp : b.pos < b.buffer.length := by
    rcases h2 with h | ⟨_, hz⟩
    · exact h
    · omega
  have hInv2 : Inv (⟨b.buffer.set b.pos v,
      if b.len < b.buffer.length then b.len + 1 else b.len,
      if b.pos + 1 = b.buffer.length then 0 else b.pos + 1⟩ : Buffer T) :=
    inv_push ⟨h1, h2, h3⟩ (push_eq hp)
  refine ⟨_, push_eq hp, rfl, by simp, ?_, ?_, hInv2, ?_⟩
  · show (if b.len < b.buffer.length then b.len + 1 else b.len) = _
    split_ifs with h <;> omega
  · show (if b.pos + 1 = b.buffer.length then 0 else b.pos + 1) = _
    split_ifs with h
    · rw [h, Nat.mod_self]
    · rw [Nat.mod_eq_of_lt (by omega)]
  · by_cases hfull : b.len = b.buffer.length
    · have hnlt : ¬ b.len < b.buffer.length := by omega
      rw [if_pos hfull, snapshot_of_full (b := b) (by omega)
        (by simpa [capacity] using hfull)]
      have tail_eq : (b.buffer.drop b.pos ++ b.buffer.take b.pos).tail =
          b.buffer.drop (b.pos + 1) ++ b.buffer.take b.pos := by
        rw [List.drop_eq_getElem_cons hp, List.cons_append, List.tail_cons]
      rw [tail_eq]
      have hmk := snapshot_of_full (b := (⟨b.buffer.set b.pos v,
          if b.len < b.buffer.length then b.len + 1 else b.len,
          if b.pos + 1 = b.buffer.length then 0 else b.pos + 1⟩ : Buffer T))
        (by show (if b.len < b.buffer.length then b.len + 1 else b.len) ≠ 0
            rw [if_neg hnlt]; omega)
        (by show (if b.len < b.buffer.length then b.len + 1 else b.len) =
              (b.buffer.set b.pos v).length
            rw [if_neg hnlt, List.length_set]; exact hfull)
      dsimp only at hmk
      by_cases hpe : b.pos + 1 = b.buffer.length
      · rw [if_pos hpe] at hmk ⊢
        simp only [List.drop_zero, List.take_zero, List.append_nil] at hmk
        rw [hmk, set_last_eq _ _ _ hpe,
          List.drop_eq_nil_of_le (by omega : b.buffer.length ≤ b.pos + 1)]
        simp
      · rw [if_neg hpe] at hmk ⊢
        rw [hmk, List.drop_set, if_pos (by omega), take_succ_set _ _ _ hp,
          List.append_assoc]
    · have hlt : b.len < b.buffer.length := by omega
      have hpl : b.pos = b.len := h3 hlt
      rw [if_neg hfull, snapshot_of_lt (b := b) ⟨h1, h2, h3⟩ hlt]
      by_cases hpe : b.pos + 1 = b.buffer.length
      · have hmk := snapshot_of_full (b := (⟨b.buffer.set b.pos v,
            if b.len < b.buffer.length then b.len + 1 else b.len,
            if b.pos + 1 = b.buffer.length then 0 else b.pos + 1⟩ : Buffer T))
          (by show (if b.len < b.buffer.length then b.len + 1 else b.len) ≠ 0
              rw [if_pos hlt]; omega)
          (by show (if b.len < b.buffer.length then b.len + 1 else b.len) =
                (b.buffer.set b.pos v).length
              rw [if_pos hlt, List.length_set]; omega)
        dsimp only at hmk
        rw [if_pos hpe] at hmk ⊢
        simp only [List.drop_zero, List.take_zero, List.append_nil] at hmk
        rw [hmk, hpl, set_last_eq _ _ _ (by omega)]
      · have hmk := snapshot_of_partial_fill (b := (⟨b.buffer.set b.pos v,
            if b.len < b.buffer.length then b.len + 1 else b.len,
            if b.pos + 1 = b.buffer.length then 0 else b.pos + 1⟩ : Buffer T))
          (by show (if b.len < b.buffer.length then b.len + 1 else b.len) ≠ 0
              rw [if_pos hlt]; omega)
          (by show (if b.len < b.buffer.length then b.len + 1 else b.len) ≠
                (b.buffer.set b.pos v).length
              rw [if_pos hlt, List.length_set]; omega)
        dsimp only at hmk
        rw [if_neg hpe] at hmk ⊢
        rw [hmk, hpl, take_succ_set _ _ _ (by omega)]

theorem lastN_lastN_append (c : Nat) (x y : List T) :
    lastN c (lastN c x ++ y) = lastN c (x ++ y) := by
  rcases Nat.le_total x.length c with h | h
  · rw [lastN_of_le h]
  · unfold lastN
    rw [← List.drop_append_of_le_length (by omega : x.length - c ≤ x.length),
      List.drop_drop, List.length_drop, List.length_append]
    congr 1
    omega

/-- Pushing one value turns the logical window `s` into the last
`capacity` elements of `s ++ [v]`. -/
theorem snapshot_step_eq_lastN {b : Buffer T} (v : T) (hInv : Inv b)
    (hc : 0 < b.buffer.length) :
    (if b.len = b.buffer.length then b.snapshot.tail else b.snapshot) ++ [v] =
      lastN b.buffer.length (b.snapshot ++ [v]) := by
  have hsl : b.snapshot.length = b.len := snapshot_length hInv
  by_cases hfull : b.len = b.buffer.length
  · rw [if_pos hfull]
    unfold lastN
    rw [List.length_append, hsl, hfull]
    have h1 : b.buffer.length + [v].length - b.buffer.length = 1 := by simp
    rw [h1, List.drop_append_of_le_length (by omega : 1 ≤ b.snapshot.length),
      List.drop_one]
  · rw [if_neg hfull]
    rw [lastN_of_le]
    rw [List.length_append, hsl]
    have := hInv.1
    simp
    omega

/-- Pushing a whole list of values one at a time from a state satisfying
the invariant, with nonzero capacity: every push succeeds and the final
logical window is the last `capacity` elements of the old window followed
by the pushed values. -/
theorem pushEach_ok (vs : List T) (b : Buffer T) (hInv : Inv b)
    (hc : 0 < b.buffer.length) :
    ∃ b2, pushEach b vs = some b2 ∧ Inv b2 ∧
      b2.buffer.length = b.buffer.length ∧
      b2.snapshot = lastN b.buffer.length (b.snapshot ++ vs) := by
  induction vs generalizing b with
  | nil =>
    refine ⟨b, rfl, hInv, rfl, ?_⟩
    rw [List.append_nil, lastN_of_le]
    rw [snapshot_length hInv]
    exact hInv.1
  | cons v vs ih =>
    obtain ⟨b1, hpush, _hbuf, hlen1, _hlen, _hpos, hInv1, hsnap⟩ :=
      push_step v hInv hc
    obtain ⟨b2, hpe, hInv2, hlen2, hsnap2⟩ :=
      ih b1 hInv1 (by rw [hlen1]; exact hc)
    refine ⟨b2, ?_, hInv2, by rw [hlen2, hlen1], ?_⟩
    · show (b.push v).bind (fun x => pushEach x vs) = some b2
      rw [hpush]
      exact hpe
    · rw [hsnap2, hlen1, hsnap, snapshot_step_eq_lastN v hInv hc,
        lastN_lastN_append]
      congr 1
      rw [List.append_assoc, List.singleton_append]

theorem head_of_len_eq_zero {b : Buffer T} (h : b.len = 0) : b.head = none := by
  have hfl : b.fill_level = .Empty := (fill_level_eq_Empty_iff b).2 h
  simp [head, hfl]

theorem head_of_len_ne_zero {b : Buffer T} (h : b.len ≠ 0) :
    b.head = b.buffer[if b.pos = 0 then b.capacity - 1 else b.pos - 1]? := by
  cases hfl : b.fill_level with
  | Empty => exact absurd ((fill_level_eq_Empty_iff b).1 hfl) h
  | Partial => simp [head, hfl]
  | Full => simp [head, hfl]

theorem getLast_take_eq {l : List T} {p : Nat} (h0 : p ≠ 0)
    (hp : p ≤ l.length) : (l.take p).getLast? = l[p - 1]? := by
  rw [List.getLast?_eq_getElem?, List.length_take]
  have h1 : min p l.length - 1 = p - 1 := by omega
  rw [h1, List.getElem?_take_of_lt (by omega)]

/-- `head()` is the last element of `snapshot()` (and `none` exactly when
the snapshot is empty). -/
theorem head_eq_getLast_aux {b : Buffer T} (hInv : Inv b) :
    b.head = b.snapshot.getLast? := by
  obtain ⟨h1, h2, h3⟩ := hInv
  rcases Nat.eq_zero_or_pos b.len with h0 | h0
  · rw [snapshot_of_len_eq_zero h0, head_of_len_eq_zero h0]
    rfl
  · have hp : b.pos < b.buffer.length := by
      rcases h2 with h | ⟨_, hz⟩
      · exact h
      · omega
    rw [head_of_len_ne_zero (by omega)]
    by_cases hfull : b.len = b.buffer.length
    · rw [snapshot_of_full (by omega) (by simpa [capacity] using hfull)]
      by_cases hp0 : b.pos = 0
      · rw [if_pos hp0, hp0]
        simp only [List.drop_zero, List.take_zero, List.append_nil]
        rw [List.getLast?_eq_getElem?]
        rfl
      · rw [if_neg hp0, List.getLast?_append,
          getLast_take_eq hp0 (by omega),
          List.getElem?_eq_getElem (show b.pos - 1 < b.buffer.length by omega),
          Option.or_some]
    · have hlt : b.len < b.buffer.length := by omega
      have hpl : b.pos = b.len := h3 hlt
      rw [snapshot_of_partial_fill (by omega)
        (fun hcne => by simp [capacity] at hcne; omega)]
      rw [if_neg (by omega : ¬ b.pos = 0), getLast_take_eq (by omega) (by omega)]

theorem push_slice_eq_each (b : Buffer T) (vs : List T) :
    b.push_slice vs = b.pushEach vs := by
  induction vs generalizing b with
  | nil => rfl
  | cons v vs ih =>
    unfold push_slice pushEach
    cases b.push v with
    | none => rfl
    | some b2 => exact ih b2

/-- C1: for every capacity `c ≥ 1` and every sequence of `n` values pushed
(one at a time or through `push_slice`) into a freshly constructed ring,
`snapshot()` returns exactly the last `min(n, c)` pushed values in push
order, oldest first (the reconstruction rule `storage[0..cursor)` /
`storage[cursor..capacity) ++ storage[0..cursor)` / `[]` is the definition
of `snapshot` itself).  `vs.drop (vs.length - c)` is the list of the last
`min(n, c)` pushed values, whatever junk the uninitialized slots held. -/
theorem snapshot_returns_last_min (T : Type) (c : Nat) (junk vs : List T)
    (hc : 1 ≤ c) (hj : junk.length = c) :
    ∃ b, pushEach (Buffer.new junk) vs = some b ∧
      (Buffer.new junk).push_slice vs = some b ∧
      b.snapshot = vs.drop (vs.length - c) ∧
      b.snapshot.length = min vs.length c := by
  obtain ⟨b, hpe, hInv, _hlen, hsnap⟩ :=
    pushEach_ok vs (Buffer.new junk) (inv_new junk)
      (by show 0 < junk.length; omega)
  refine ⟨b, hpe, ?_, ?_, ?_⟩
  · rw [push_slice_eq_each]
    exact hpe
  · rw [hsnap, snapshot_of_len_eq_zero (rfl : (Buffer.new junk).len = 0)]
    show lastN junk.length ([] ++ vs) = _
    rw [List.nil_append, hj]
    rfl
  · rw [hsnap, snapshot_of_len_eq_zero (rfl : (Buffer.new junk).len = 0)]
    show (lastN junk.length ([] ++ vs)).length = _
    rw [List.nil_append, hj, lastN_length]
    omega

/-- C1 witness: capacity 2, pushes `[1, 2, 3]`, snapshot `[2, 3]`. -/
theorem snapshot_returns_last_min_witness :
    ∃ b, pushEach (Buffer.new [0, 0]) [1, 2, 3] = some b ∧
      (Buffer.new [0, 0]).push_slice [1, 2, 3] = some b ∧
      b.snapshot = [1, 2, 3].drop ([1, 2, 3].length - 2) ∧
      b.snapshot.length = min [1, 2, 3].length 2 :=
  snapshot_returns_last_min Nat 2 [0, 0] [1, 2, 3] (by decide) (by decide)

/-- C2 (evidence for the code bug): pushing into a capacity-0 ring executes
`self.buffer[self.pos] = value` with `pos = 0` on a zero-length vector,
which panics (`none` here) instead of completing as a silent no-op; the
same panic aborts `push_slice` of any non-empty slice on its first
element.  The read half of the claim does hold: `len()` is 0, `snapshot()`
is empty and `head()` is none on the capacity-0 ring. -/
theorem capacity_zero_push_panics :
    (Buffer.new ([] : List Nat)).push 1 = none ∧
    (Buffer.new ([] : List Nat)).push_slice [1, 2] = none ∧
    (Buffer.new ([] : List Nat)).len = 0 ∧
    (Buffer.new ([] : List Nat)).snapshot = [] ∧
    (Buffer.new ([] : List Nat)).head = none :=
  ⟨rfl, rfl, rfl, rfl, rfl⟩

/-- C3: for every capacity `c ≥ 1` and every sequence of `n` pushed values,
`len()` equals `min(n, c)`, and `is_empty()` returns true exactly when
`len()` is 0. -/
theorem len_equals_min (T : Type) (c : Nat) (junk vs : List T)
    (hc : 1 ≤ c) (hj : junk.length = c) :
    (∃ b, pushEach (Buffer.new junk) vs = some b ∧ b.len = min vs.length c) ∧
    (∀ b : Buffer T, b.is_empty = true ↔ b.len = 0) := by
  constructor
  · obtain ⟨b, hpe, hInv, _hlen, hsnap⟩ :=
      pushEach_ok vs (Buffer.new junk) (inv_new junk)
        (by show 0 < junk.length; omega)
    refine ⟨b, hpe, ?_⟩
    rw [← snapshot_length hInv, hsnap,
      snapshot_of_len_eq_zero (rfl : (Buffer.new junk).len = 0)]
    show (lastN junk.length ([] ++ vs)).length = _
    rw [List.nil_append, hj, lastN_length]
    omega
  · intro b
    simp [is_empty]

/-- C3 witness: capacity 2, three pushes, `len()` is 2. -/
theorem len_equals_min_witness :
    ∃ b, pushEach (Buffer.new [0, 0]) [4, 5, 6] = some b ∧
      b.len = min [4, 5, 6].length 2 :=
  (len_equals_min Nat 2 [0, 0] [4, 5, 6] (by decide) (by decide)).1

/-- C4: in every reachable ring state, `head()` is the last element of
`snapshot()` when the snapshot is non-empty and none when it is empty
(`getLast?` covers both cases), and when `length > 0` it is the slot
immediately preceding the cursor, wrapping to `capacity - 1` when the
cursor is 0. -/
theorem head_is_last_of_snapshot (T : Type) (b : Buffer T)
    (hr : Reachable b) :
    b.head = b.snapshot.getLast? ∧
    (0 < b.len →
      b.head = b.buffer[if b.pos = 0 then b.capacity - 1 else b.pos - 1]?) :=
  ⟨head_eq_getLast_aux (inv_of_reachable hr),
   fun h0 => head_of_len_ne_zero (by omega)⟩

/-- C4 witness: after pushing 5 into a capacity-2 ring. -/
theorem head_is_last_of_snapshot_witness :
    (⟨[5, 9], 1, 1⟩ : Buffer Nat).head =
      (⟨[5, 9], 1, 1⟩ : Buffer Nat).snapshot.getLast? :=
  (head_is_last_of_snapshot Nat ⟨[5, 9], 1, 1⟩
    (Reachable.push _ _ 5 (Reachable.new [9, 9]) rfl)).1

/-- C5: `push_slice(v)` produces exactly the same final ring state as
calling `push` once per element of `v` in order, for every starting state
and every sequence (so every later `snapshot`/`head`/`len` agrees, and a
mid-slice panic leaves both sides panicking). -/
theorem push_slice_equiv_pushes (T : Type) (b : Buffer T) (vs : List T) :
    b.push_slice vs = b.pushEach vs :=
  push_slice_eq_each b vs

/-- C6: after `clear()` on any ring state whatsoever, `length` is 0, the
cursor is 0, `snapshot()` is empty, `head()` is none and `len()` is 0; no
prior contents are observable through those operations. -/
theorem clear_resets (T : Type) (b : Buffer T) :
    b.clear.len = 0 ∧ b.clear.pos = 0 ∧ b.clear.snapshot = [] ∧
      b.clear.head = none :=
  ⟨rfl, rfl, snapshot_of_len_eq_zero rfl, head_of_len_eq_zero rfl⟩

/-- C7: `fill_level()` is exactly the classification derived from `length`
and `capacity`: `Empty` iff `length = 0`, `Full` iff `length = capacity`
and `length > 0`, `Partial` iff neither; and a (reachable) capacity-0 ring
always reports `Empty`. -/
theorem fill_level_matches_len (T : Type) (b : Buffer T)
    (hr : Reachable b) :
    ((b.fill_level = .Empty ↔ b.len = 0) ∧
     (b.fill_level = .Full ↔ (b.len = b.capacity ∧ 0 < b.len)) ∧
     (b.fill_level = .Partial ↔ (b.len ≠ 0 ∧ b.len ≠ b.capacity))) ∧
    (b.capacity = 0 → b.fill_level = .Empty) := by
  refine ⟨⟨fill_level_eq_Empty_iff b, fill_level_eq_Full_iff b,
    fill_level_eq_Partial_iff b⟩, fun hc0 => ?_⟩
  have hInv := inv_of_reachable hr
  have h1 := hInv.1
  simp only [capacity] at hc0
  exact (fill_level_eq_Empty_iff b).2 (by omega)

/-- C7 witness: the freshly constructed capacity-0 ring reports `Empty`. -/
theorem fill_level_matches_len_witness :
    (Buffer.new ([] : List Nat)).fill_level = .Empty :=
  (fill_level_matches_len Nat (Buffer.new []) (Reachable.new [])).2 rfl

/-- C8 counterexample: the claim quantifies over every ring, but in the
reachable state `new(0)` the cursor is 0 while the interval
`[0, capacity) = [0, 0)` is empty, so "cursor lies in [0, capacity)"
fails (and a further push panics rather than overwriting anything). -/
theorem cursor_bound_fails_at_capacity_zero :
    Reachable (Buffer.new ([] : List Nat)) ∧
    ¬ ((Buffer.new ([] : List Nat)).pos < (Buffer.new ([] : List Nat)).capacity) :=
  ⟨Reachable.new [], by decide⟩

/-- C8 (amended): in every reachable state, `length ≤ capacity`; the
cursor lies in `[0, capacity)` whenever `capacity ≥ 1`, while a capacity-0
ring keeps cursor = length = 0; and once `length = capacity` (with
`capacity ≥ 1`) each further push succeeds, overwrites the slot at the
cursor (which holds the oldest element), advances the cursor modulo the
capacity, keeps `length = capacity`, and drops the oldest element from
the logical window while appending the new one. -/
theorem state_invariant_amended (T : Type) (b : Buffer T)
    (hr : Reachable b) :
    b.len ≤ b.capacity ∧
    (1 ≤ b.capacity → b.pos < b.capacity) ∧
    (b.capacity = 0 → b.pos = 0 ∧ b.len = 0) ∧
    (b.len = b.capacity → 1 ≤ b.capacity → ∀ v, ∃ b2, b.push v = some b2 ∧
      b2.len = b.capacity ∧ b2.pos = (b.pos + 1) % b.capacity ∧
      b2.buffer = b.buffer.set b.pos v ∧
      b2.snapshot = b.snapshot.tail ++ [v]) := by
  obtain ⟨h1, h2, h3⟩ := inv_of_reachable hr
  refine ⟨h1, ?_, ?_, ?_⟩
  · intro hcap
    simp only [capacity] at hcap ⊢
    rcases h2 with h | ⟨_, hz⟩
    · exact h
    · omega
  · intro hc0
    simp only [capacity] at hc0 ⊢
    rcases h2 with h | ⟨hp0, _⟩
    · omega
    · exact ⟨hp0, by omega⟩
  · intro hfull hcap v
    simp only [capacity] at hfull hcap ⊢
    obtain ⟨b2, hpush, hbuf, _hlen1, hlen, hpos, _hInv2, hsnap⟩ :=
      push_step v ⟨h1, h2, h3⟩ (by omega)
    refine ⟨b2, hpush, ?_, hpos, hbuf, ?_⟩
    · rw [hlen]
      omega
    · rw [hsnap, if_pos hfull]

/-- C8 witness: pushing 9 into the full capacity-2 ring `[1, 2]`. -/
theorem state_invariant_amended_witness :
    ∃ b2, (⟨[1, 2], 2, 0⟩ : Buffer Nat).push 9 = some b2 ∧
      b2.len = (⟨[1, 2], 2, 0⟩ : Buffer Nat).capacity ∧
      b2.pos = ((⟨[1, 2], 2, 0⟩ : Buffer Nat).pos + 1) %
        (⟨[1, 2], 2, 0⟩ : Buffer Nat).capacity ∧
      b2.buffer = (⟨[1, 2], 2, 0⟩ : Buffer Nat).buffer.set
        (⟨[1, 2], 2, 0⟩ : Buffer Nat).pos 9 ∧
      b2.snapshot = (⟨[1, 2], 2, 0⟩ : Buffer Nat).snapshot.tail ++ [9] :=
  (state_invariant_amended Nat ⟨[1, 2], 2, 0⟩
      (Reachable.push _ _ 2 (Reachable.push _ _ 1 (Reachable.new [9, 9]) rfl)
        rfl)).2.2.2 (by decide) (by decide) 9

/-- C10: in every reachable state with `length < capacity` the cursor
equals `length`, and the logical window is exactly `storage[0..length)`
with no wrap, so the `Partial` branch of `snapshot` reads only the slots
that pushes have written (C1 shows the snapshot never depends on the
junk). -/
theorem partial_window_unwrapped (T : Type) (b : Buffer T)
    (hr : Reachable b) (h : b.len < b.capacity) :
    b.pos = b.len ∧ b.snapshot = b.buffer.take b.len := by
  have hInv := inv_of_reachable hr
  have h2 : b.len < b.buffer.length := by simpa [capacity] using h
  exact ⟨hInv.2.2 h2, snapshot_of_lt hInv h2⟩

/-- C10 witness: one push into a capacity-2 ring. -/
theorem partial_window_unwrapped_witness :
    (⟨[5, 9], 1, 1⟩ : Buffer Nat).pos = (⟨[5, 9], 1, 1⟩ : Buffer Nat).len ∧
    (⟨[5, 9], 1, 1⟩ : Buffer Nat).snapshot =
      (⟨[5, 9], 1, 1⟩ : Buffer Nat).buffer.take
        (⟨[5, 9], 1, 1⟩ : Buffer Nat).len :=
  partial_window_unwrapped Nat ⟨[5, 9], 1, 1⟩
    (Reachable.push _ _ 5 (Reachable.new [9, 9]) rfl) (by decide)

end Buffer
